import Mathlib

/-!
Verification of the shell-command executable extractor
(`src/main/utils/extractExecutables.ts`).

The extractor is embedded shallowly over `List Char`.  The JavaScript
regular-expression passes are modelled by explicit backtracking matchers
that follow the engine's priority order (greedy quantifiers try longest
first, lazy quantifiers shortest first, optional groups try the consuming
branch first, matches are leftmost and non-overlapping).  Global
`String.replace(re, '')` calls become `scrub`, a left-to-right scan that
deletes every match.
-/

set_option autoImplicit false

namespace ExtractExec

/-- The characters of JavaScript `\s` (ECMAScript WhiteSpace and
LineTerminator), enumerated as concrete code points. -/
def jsWsChars : List Char :=
  [' ', '\t', '\n', '\r', '\x0b', '\x0c',
   '\u00A0', '\u1680', '\u2000', '\u2001', '\u2002', '\u2003', '\u2004',
   '\u2005', '\u2006', '\u2007', '\u2008', '\u2009', '\u200A', '\u2028',
   '\u2029', '\u202F', '\u205F', '\u3000', '\uFEFF']

/-- Character class of JavaScript `\s`. -/
def isJsWs (c : Char) : Bool := decide (c ∈ jsWsChars)

/-- Character class of JavaScript `\w`: `[A-Za-z0-9_]`. -/
def isWordChar (c : Char) : Bool :=
  c.isAlpha || c.isDigit || c = '_'

/-- The heredoc marker may be wrapped in a single or a double quote. -/
def isQuoteCh (c : Char) : Bool :=
  c = '\'' || c = '"'

/-- JavaScript line terminators (the characters `.` does not match). -/
def isLineTerm (c : Char) : Bool :=
  c = '\n' || c = '\r' || c = '\u2028' || c = '\u2029'

/-- Length of the maximal `\s*` run at the head of `s`. -/
def wsRun (s : List Char) : Nat := (s.takeWhile isJsWs).length

/-- Length of the maximal `\w*` run at the head of `s`. -/
def wordRun (s : List Char) : Nat := (s.takeWhile isWordChar).length

/-- Length of the maximal `\d*` run at the head of `s`. -/
def digitRun (s : List Char) : Nat := (s.takeWhile Char.isDigit).length

/-- Length of the maximal `\S*` run at the head of `s`. -/
def nonWsRun (s : List Char) : Nat := (s.takeWhile (fun c => !isJsWs c)).length

/-- `leadsWith n h` holds when `n` is an initial segment of `h`. -/
def leadsWith : List Char → List Char → Bool
  | [], _ => true
  | _ :: _, [] => false
  | a :: n, b :: h => a = b && leadsWith n h

/-- `containsSeq n h`: `n` occurs contiguously somewhere in `h`. -/
def containsSeq (n : List Char) : List Char → Bool
  | [] => n.isEmpty
  | c :: r => leadsWith n (c :: r) || containsSeq n r

/-- Try `f k, f (k-1), …, f 0` and return the first success: the
backtracking order of a greedy quantifier bounded by `k`. -/
def tryFrom (f : Nat → Option Nat) : Nat → Option Nat
  | 0 => f 0
  | k + 1 =>
    match f (k + 1) with
    | some n => some n
    | none => tryFrom f k

/-- Try `f 0, f 1, …, f max` and return the first success: the
backtracking order of a lazy quantifier bounded by `max`. -/
def tryUpTo (f : Nat → Option Nat) (max : Nat) : Option Nat :=
  tryFrom (fun k => f (max - k)) max

/-- Tail `\s*(?=\n|$)` of the first heredoc regex: greedily consume
whitespace, then require a newline or the end of input. -/
def h1Tail (r : List Char) : Option Nat :=
  tryFrom (fun k =>
    match r.drop k with
    | [] => some k
    | '\n' :: _ => some k
    | _ => none) (wsRun r)

/-- Terminator `\n\1\s*(?=\n|$)` of the first heredoc regex, for a fixed
captured `marker`. -/
def h1Term (marker r : List Char) : Option Nat :=
  match r with
  | '\n' :: r' =>
    if leadsWith marker r' then
      (h1Tail (r'.drop marker.length)).map (fun t => 1 + marker.length + t)
    else none
  | _ => none

/-- Lazy body `[\s\S]*?` followed by the terminator. -/
def h1Body (marker r : List Char) : Option Nat :=
  tryUpTo (fun b => (h1Term marker (r.drop b)).map (fun n => b + n)) r.length

/-- Optional closing quote `['"]?` after the marker, then the body. -/
def h1AfterMarker (marker r : List Char) : Option Nat :=
  match r with
  | c :: r' =>
    if isQuoteCh c then
      match h1Body marker r' with
      | some n => some (n + 1)
      | none => h1Body marker r
    else h1Body marker r
  | [] => h1Body marker []

/-- Greedy capture `(\w+)` (longest marker first), then the rest. -/
def h1Marker (r : List Char) : Option Nat :=
  tryFrom (fun m =>
    if m = 0 then none
    else (h1AfterMarker (r.take m) (r.drop m)).map (fun n => m + n)) (wordRun r)

/-- Optional opening quote `['"]?` before the marker, then the rest. -/
def h1AfterWs (r : List Char) : Option Nat :=
  match r with
  | c :: r' =>
    if isQuoteCh c then
      match h1Marker r' with
      | some n => some (n + 1)
      | none => h1Marker r
    else h1Marker r
  | [] => h1Marker []

/-- Anchored matcher for `<<\s*['"]?(\w+)['"]?[\s\S]*?\n\1\s*(?=\n|$)`:
returns the length of the match starting at the head of the input. -/
def matchH1 : List Char → Option Nat
  | c1 :: c2 :: rest =>
    if c1 = '<' && c2 = '<' then
      (tryFrom (fun k => (h1AfterWs (rest.drop k)).map (fun n => k + n))
        (wsRun rest)).map (fun n => n + 2)
    else none
  | _ => none

/-- Left-to-right global deletion of every match of `m` (the effect of
`String.replace(re, '')` with the `g` flag).  `fuel` bounds the recursion;
each step consumes at least one character, so `fuel = s.length` is exact. -/
def scrub (m : List Char → Option Nat) : Nat → List Char → List Char
  | 0, s => s
  | _ + 1, [] => []
  | f + 1, c :: rest =>
    match m (c :: rest) with
    | some (n + 1) => scrub m f (rest.drop n)
    | _ => c :: scrub m f rest

/-- First cleaning pass: remove heredocs that have a terminator line. -/
def heredocStrip1 (s : List Char) : List Char := scrub matchH1 s.length s

/-- Core of the second heredoc regex after `<<` and the whitespace run:
a word character, possibly preceded by one quote. -/
def h2Core : List Char → Bool
  | [] => false
  | c :: r' =>
    if isQuoteCh c then
      match r' with
      | [] => false
      | d :: _ => isWordChar d
    else isWordChar c

/-- Anchored test for the second heredoc regex `<<\s*['"]?\w+['"]?[\s\S]*$`:
after `<<` and the maximal whitespace run there must be a word character,
possibly preceded by one quote. -/
def isH2Start : List Char → Bool
  | c1 :: c2 :: rest => c1 = '<' && c2 = '<' && h2Core (rest.drop (wsRun rest))
  | _ => false

/-- Second cleaning pass: a heredoc start without a terminator in view
consumes everything up to the end of the input. -/
def heredocStrip2 : List Char → List Char
  | [] => []
  | c :: r => if isH2Start (c :: r) then [] else c :: heredocStrip2 r

/-- Position of the text following the first occurrence of `q`. -/
def findQuoteSplit (q : Char) : List Char → Option (List Char)
  | [] => none
  | c :: r => if c = q then some r else findQuoteSplit q r

/-- Global replacement of `q[^q]*q` by `qq`: the contents of balanced
quote pairs are removed, the quotes are kept as an empty pair. -/
def replQ (q : Char) : Nat → List Char → List Char
  | 0, s => s
  | _ + 1, [] => []
  | f + 1, c :: rest =>
    if c = q then
      match findQuoteSplit q rest with
      | some after => q :: q :: replQ q f after
      | none => c :: rest
    else c :: replQ q f rest

/-- String-literal neutralization for one quote character. -/
def stripQuoted (q : Char) (s : List Char) : List Char := replQ q s.length s

/-- Anchored matcher for `\d*>&?\d+` (descriptor duplication): a maximal
digit run, `>`, an optional `&` (kept only when digits follow it), then a
maximal digit run of length at least one. -/
def matchRedir1 (s : List Char) : Option Nat :=
  match s.drop (digitRun s) with
  | '>' :: r =>
    (match r with
     | '&' :: r' =>
       if digitRun r' ≠ 0 then some (digitRun s + 2 + digitRun r')
       else if digitRun r ≠ 0 then some (digitRun s + 1 + digitRun r) else none
     | _ => if digitRun r ≠ 0 then some (digitRun s + 1 + digitRun r) else none)
  | _ => none

/-- Anchored matcher for `\d+>>\S+` (numbered append redirection). -/
def matchRedir2 (s : List Char) : Option Nat :=
  if digitRun s = 0 then none
  else
    match s.drop (digitRun s) with
    | '>' :: '>' :: r =>
      if nonWsRun r ≠ 0 then some (digitRun s + 2 + nonWsRun r) else none
    | _ => none

/-- Anchored matcher for `\d+>\S+` (numbered output redirection). -/
def matchRedir3 (s : List Char) : Option Nat :=
  if digitRun s = 0 then none
  else
    match s.drop (digitRun s) with
    | '>' :: r => if nonWsRun r ≠ 0 then some (digitRun s + 1 + nonWsRun r) else none
    | _ => none

/-- Segment separators: the class `[;&|\n]`. -/
def isSep (c : Char) : Bool :=
  c = ';' || c = '&' || c = '|' || c = '\n'

/-- `String.split` on a character class with a `+` quantifier: fields are
the (possibly empty) stretches between maximal separator runs.  The `Bool`
flag records whether the scanner is inside a separator run. -/
def splitRunsGo (p : Char → Bool) : Bool → List Char → List Char → List (List Char)
  | false, acc, [] => [acc.reverse]
  | false, acc, c :: r =>
    if p c then acc.reverse :: splitRunsGo p true [] r
    else splitRunsGo p false (c :: acc) r
  | true, _, [] => [[]]
  | true, _, c :: r =>
    if p c then splitRunsGo p true [] r
    else splitRunsGo p false [c] r

/-- JavaScript `split(/X+/)` for the single-character class `p`. -/
def splitRuns (p : Char → Bool) (s : List Char) : List (List Char) :=
  splitRunsGo p false [] s

/-- JavaScript `String.trim`. -/
def jsTrim (s : List Char) : List Char :=
  ((s.dropWhile isJsWs).reverse.dropWhile isJsWs).reverse

/-- Test for `/^[A-Z]+$/` (heredoc marker residue). -/
def isUpperAZ (c : Char) : Bool := 'A' ≤ c && c ≤ 'Z'

/-- A non-empty all-uppercase segment is skipped as marker residue. -/
def upperOnly (s : List Char) : Bool := !s.isEmpty && s.all isUpperAZ

/-- Character class `[A-Za-z0-9_-]` of acceptable executable names. -/
def isExecChar (c : Char) : Bool := isWordChar c || c = '-'

/-- Test for `/^[a-zA-Z0-9_-]+$/`. -/
def validName (s : List Char) : Bool := !s.isEmpty && s.all isExecChar

/-- Token starts with `-` (a flag). -/
def startsDash : List Char → Bool
  | '-' :: _ => true
  | _ => false

/-- Token contains `=` (an assignment). -/
def containsEq (s : List Char) : Bool := s.contains '='

/-- Character class `[<>|&;()]` of shell punctuation. -/
def isPunctCh (c : Char) : Bool :=
  c = '<' || c = '>' || c = '|' || c = '&' || c = ';' || c = '(' || c = ')'

/-- Test for `/^[<>|&;()]+$/`. -/
def punctOnly (s : List Char) : Bool := !s.isEmpty && s.all isPunctCh

/-- Token starts with `>` or `<` (loose redirection remnant). -/
def startsRedir : List Char → Bool
  | '>' :: _ => true
  | '<' :: _ => true
  | _ => false

/-- The fixed prefix list of the source. -/
def prefixes : List (List Char) :=
  ["sudo".toList, "env".toList, "nohup".toList, "nice".toList,
   "time".toList, "command".toList]

/-- Shell builtins that are skipped. -/
def SHELL_BUILTINS_TO_SKIP : List (List Char) :=
  ["true".toList, "false".toList]

/-- Shell control-flow keywords that are skipped. -/
def SHELL_KEYWORDS_TO_SKIP : List (List Char) :=
  ["for".toList, "in".toList, "do".toList, "done".toList, "while".toList,
   "until".toList, "if".toList, "then".toList, "else".toList, "elif".toList,
   "fi".toList, "case".toList, "esac".toList, "select".toList]

/-- Executables whose first subcommand is part of the identity. -/
def SUBCOMMAND_EXECUTABLES : List (List Char) :=
  ["git".toList, "npm".toList, "yarn".toList, "pnpm".toList,
   "docker".toList, "kubectl".toList]

/-- `part.replace(/^.*\//, '')`: drop everything up to the last `/` that
`.` can reach (i.e. the last `/` before any line terminator). -/
def jsBasenameGo (cand : List Char) : List Char → List Char
  | [] => cand
  | c :: r =>
    if isLineTerm c then cand
    else if c = '/' then jsBasenameGo r r
    else jsBasenameGo cand r

/-- Basename of a token. -/
def jsBasename (p : List Char) : List Char := jsBasenameGo p p

/-- The skip conditions of the main token loop, as one predicate. -/
def skipTok (p : List Char) : Bool :=
  (containsEq p && !startsDash p) || startsDash p || p ∈ prefixes ||
  p ∈ SHELL_BUILTINS_TO_SKIP || p ∈ SHELL_KEYWORDS_TO_SKIP ||
  p.isEmpty || punctOnly p || startsRedir p

/-- The main token loop: walk the parts, skipping assignments, flags,
prefixes, builtins, keywords, punctuation and redirection remnants (the
`continue` chain of the source, collected in `skipTok` in source order);
the first part whose basename passes `validName` is the executable, paired
with the parts that follow it (for the subcommand scan). -/
def findExec : List (List Char) → Option (List Char × List (List Char))
  | [] => none
  | part :: r =>
    if skipTok part then findExec r
    else if validName (jsBasename part) then some (jsBasename part, r)
    else findExec r

/-- The subcommand scan: skip flags and `=`-containing parts; the first
other part is the subcommand if it passes `validName`, otherwise the scan
halts with nothing. -/
def findSub : List (List Char) → Option (List Char)
  | [] => none
  | np :: r =>
    if startsDash np || containsEq np then findSub r
    else if validName np then some np
    else none

/-- The identity a tokenized segment contributes: the executable, extended
with its first subcommand when it belongs to `SUBCOMMAND_EXECUTABLES`. -/
def segIdentity (parts : List (List Char)) : Option (List Char) :=
  match findExec parts with
  | none => none
  | some (ex, r) =>
    if ex ∈ SUBCOMMAND_EXECUTABLES then
      match findSub r with
      | some sub => some (ex ++ ' ' :: sub)
      | none => some ex
    else some ex

/-- Per-segment processing: trim, drop empty and all-uppercase segments,
tokenize on whitespace, and run the token loop. -/
def segExec (seg : List Char) : Option (List Char) :=
  let t := jsTrim seg
  if t.isEmpty then none
  else if upperOnly t then none
  else segIdentity (splitRuns isJsWs t)

/-- Append an identity unless it is already present (the
`executables.includes` check of the source). -/
def pushNew (acc : List (List Char)) (e : List Char) : List (List Char) :=
  if e ∈ acc then acc else acc ++ [e]

/-- Fold the segments into the accumulated identity list. -/
def procSegs (acc : List (List Char)) : List (List Char) → List (List Char)
  | [] => acc
  | seg :: rest =>
    match segExec seg with
    | none => procSegs acc rest
    | some eid => procSegs (pushNew acc eid) rest

/-- First-seen deduplication started from an arbitrary accumulator. -/
def dedupAcc (acc : List (List Char)) : List (List Char) → List (List Char)
  | [] => acc
  | e :: l => dedupAcc (pushNew acc e) l

/-- First-seen deduplication of a list of identities. -/
def dedupFirst (l : List (List Char)) : List (List Char) := dedupAcc [] l

/-- The textual cleaning passes that follow heredoc handling: quote
neutralization, then the three redirection strips. -/
def postHeredoc (s : List Char) : List Char :=
  let c3 := stripQuoted '"' s
  let c4 := stripQuoted '\'' c3
  let c5 := stripQuoted '\x60' c4
  let c6 := scrub matchRedir1 c5.length c5
  let c7 := scrub matchRedir2 c6.length c6
  scrub matchRedir3 c7.length c7

/-- The whole cleaning pipeline of the source, in order. -/
def cleanAll (command : List Char) : List Char :=
  postHeredoc (heredocStrip2 (heredocStrip1 command))

/-- The per-segment identities, in segment order, before deduplication. -/
def rawIdentities (command : List Char) : List (List Char) :=
  (splitRuns isSep (cleanAll command)).filterMap segExec

/-- `extractExecutables`: clean, split into segments, extract one identity
per segment, deduplicate keeping first occurrences. -/
def extractExecutables (command : List Char) : List (List Char) :=
  procSegs [] (splitRuns isSep (cleanAll command))

/-- Negation of being the space character, as a `Bool` predicate. -/
def notSpace (c : Char) : Bool := !(c = ' ')

/-- The output-shape regex of the specification,
`^[A-Za-z0-9_-]+( [A-Za-z0-9_-]+)?$`: one valid name, optionally followed
by a single space and a second valid name. -/
def identityOk (e : List Char) : Bool :=
  match e.dropWhile notSpace with
  | [] => validName e
  | _ :: rest => validName (e.takeWhile notSpace) && validName rest

/-- The identities `dedupAcc acc l` appends to `acc`: the elements of `l`
not already seen, in first-occurrence order. -/
def newsF (acc : List (List Char)) : List (List Char) → List (List Char)
  | [] => []
  | e :: l => if e ∈ acc then newsF acc l else e :: newsF (acc ++ [e]) l

/-- Characters whose absence keeps every cleaning pass inert: quotes,
backtick, and the redirection and heredoc characters. -/
def specialChars : List Char := ['"', '\'', '\x60', '<', '>']

/-- The three string-literal neutralization passes alone (no heredoc or
redirection handling): used to express that a word occurs only inside
balanced quoted spans of a string. -/
def quoteNeutralize (s : List Char) : List Char :=
  stripQuoted '\x60' (stripQuoted '\'' (stripQuoted '"' s))

/-- The subcommand scan as the specification words it: skip flags and
`=`-containing parts, then accept or halt at the first other part. -/
def subScanSpec (parts : List (List Char)) : Option (List Char) :=
  match parts.dropWhile (fun np => startsDash np || containsEq np) with
  | [] => none
  | np :: _ => if validName np then some np else none

/-- The executable choice as the amended claim words it: the basename of
the first non-skipped part whose basename passes `validName`. -/
def firstExecSpec (parts : List (List Char)) : Option (List Char) :=
  parts.findSome? fun p =>
    if skipTok p then none
    else if validName (jsBasename p) then some (jsBasename p) else none

/-! ### Character-class facts -/

theorem ws_not_word {c : Char} (h : isJsWs c = true) : isWordChar c = false := by
  simp only [isJsWs] at h
  have hm : c ∈ jsWsChars := of_decide_eq_true h
  fin_cases hm <;> decide

theorem ws_not_quote {c : Char} (h : isJsWs c = true) : isQuoteCh c = false := by
  simp only [isJsWs] at h
  have hm : c ∈ jsWsChars := of_decide_eq_true h
  fin_cases hm <;> decide

theorem execChar_notSpace {c : Char} (h : isExecChar c = true) : notSpace c = true := by
  by_cases hc : c = ' '
  · subst hc; exact absurd h (by decide)
  · simp [notSpace, hc]

/-! ### takeWhile / dropWhile over an append -/

theorem takeWhile_append_of {p : Char → Bool} {a : List Char} {x : Char} {b : List Char}
    (ha : ∀ c ∈ a, p c = true) (hx : p x = false) :
    (a ++ x :: b).takeWhile p = a := by
  induction a with
  | nil =>
    rw [List.nil_append, List.takeWhile_cons_of_neg (by simp [hx])]
  | cons c a ih =>
    have hc : p c = true := ha c (List.mem_cons_self c a)
    rw [List.cons_append, List.takeWhile_cons_of_pos hc,
      ih (fun d hd => ha d (List.mem_cons_of_mem c hd))]

theorem dropWhile_append_of {p : Char → Bool} {a : List Char} {x : Char} {b : List Char}
    (ha : ∀ c ∈ a, p c = true) (hx : p x = false) :
    (a ++ x :: b).dropWhile p = x :: b := by
  induction a with
  | nil =>
    rw [List.nil_append, List.dropWhile_cons_of_neg (by simp [hx])]
  | cons c a ih =>
    have hc : p c = true := ha c (List.mem_cons_self c a)
    rw [List.cons_append, List.dropWhile_cons_of_pos hc]
    exact ih (fun d hd => ha d (List.mem_cons_of_mem c hd))

/-! ### Deduplication machinery -/

theorem mem_pushNew {acc : List (List Char)} {e x : List Char} :
    x ∈ pushNew acc e ↔ x ∈ acc ∨ x = e := by
  unfold pushNew
  split
  · rename_i h
    constructor
    · exact Or.inl
    · rintro (hx | rfl)
      · exact hx
      · exact h
  · simp

theorem nodup_pushNew {acc : List (List Char)} {e : List Char} (h : acc.Nodup) :
    (pushNew acc e).Nodup := by
  unfold pushNew
  split
  · exact h
  · rename_i he
    exact List.Nodup.append h (List.nodup_singleton e)
      (fun x hx hx' => he (by rwa [List.mem_singleton.mp hx'] at hx))

theorem dedupAcc_nodup : ∀ (l acc : List (List Char)), acc.Nodup → (dedupAcc acc l).Nodup
  | [], _, h => h
  | _ :: l, acc, h => dedupAcc_nodup l (pushNew acc _) (nodup_pushNew h)

theorem mem_dedupAcc : ∀ {l acc : List (List Char)} {x : List Char},
    x ∈ dedupAcc acc l → x ∈ acc ∨ x ∈ l := by
  intro l
  induction l with
  | nil => intro acc x h; exact Or.inl h
  | cons e l ih =>
    intro acc x h
    rcases ih h with h' | h'
    · rcases mem_pushNew.mp h' with h'' | rfl
      · exact Or.inl h''
      · exact Or.inr (List.mem_cons_self _ _)
    · exact Or.inr (List.mem_cons_of_mem _ h')

theorem procSegs_eq : ∀ (segs : List (List Char)) (acc : List (List Char)),
    procSegs acc segs = dedupAcc acc (segs.filterMap segExec) := by
  intro segs
  induction segs with
  | nil => intro acc; rfl
  | cons seg rest ih =>
    intro acc
    simp only [procSegs, List.filterMap_cons]
    cases h : segExec seg with
    | none => exact ih acc
    | some eid => simpa [dedupAcc] using ih (pushNew acc eid)

/-! ### Shape of the emitted identities -/

theorem validName_chars {s : List Char} {c : Char} (h : validName s = true) (hc : c ∈ s) :
    isExecChar c = true := by
  simp only [validName, Bool.and_eq_true, List.all_eq_true] at h
  exact h.2 c hc

theorem identityOk_single {s : List Char} (h : validName s = true) : identityOk s = true := by
  have hd : s.dropWhile notSpace = [] := by
    rw [List.dropWhile_eq_nil_iff]
    exact fun c hc => execChar_notSpace (validName_chars h hc)
  unfold identityOk
  rw [hd]
  exact h

theorem identityOk_pair {ex sub : List Char} (h1 : validName ex = true)
    (h2 : validName sub = true) : identityOk (ex ++ ' ' :: sub) = true := by
  have ha : ∀ c ∈ ex, notSpace c = true :=
    fun c hc => execChar_notSpace (validName_chars h1 hc)
  have hx : notSpace ' ' = false := by decide
  unfold identityOk
  rw [dropWhile_append_of ha hx, takeWhile_append_of ha hx]
  simp [h1, h2]

theorem findSub_valid : ∀ {l : List (List Char)} {sub : List Char},
    findSub l = some sub → validName sub = true := by
  intro l
  induction l with
  | nil => intro sub h; exact absurd h (by simp [findSub])
  | cons np r ih =>
    intro sub h
    rw [findSub] at h
    split at h
    · exact ih h
    · split at h
      · cases h; assumption
      · exact absurd h (by simp)

theorem findExec_valid : ∀ {l : List (List Char)} {ex : List Char} {r : List (List Char)},
    findExec l = some (ex, r) → validName ex = true := by
  intro l
  induction l with
  | nil => intro ex r h; exact absurd h (by simp [findExec])
  | cons part l ih =>
    intro ex r h
    rw [findExec] at h
    split at h
    · exact ih h
    · split at h
      · cases h; assumption
      · exact ih h

theorem segIdentity_valid {parts : List (List Char)} {e : List Char}
    (h : segIdentity parts = some e) : identityOk e = true := by
  unfold segIdentity at h
  split at h
  · exact absurd h (by simp)
  · rename_i ex r hf
    have hex := findExec_valid hf
    split at h
    · split at h
      · rename_i sub hs
        cases h
        exact identityOk_pair hex (findSub_valid hs)
      · cases h
        exact identityOk_single hex
    · cases h
      exact identityOk_single hex

theorem segExec_valid {seg : List Char} {e : List Char}
    (h : segExec seg = some e) : identityOk e = true := by
  simp only [segExec] at h
  split at h
  · exact absurd h (by simp)
  · split at h
    · exact absurd h (by simp)
    · exact segIdentity_valid h

/-! ### Claim C1: output invariants -/

/-- C1: for every input, every element of the extracted list matches
`^[A-Za-z0-9_-]+( [A-Za-z0-9_-]+)?$` (so it is non-empty), the list has no
duplicate strings, and it is the first-seen deduplication of the
per-segment identities in scan order. -/
theorem c1_output_invariants (s : List Char) :
    (∀ e ∈ extractExecutables s, identityOk e = true) ∧
    (extractExecutables s).Nodup ∧
    extractExecutables s = dedupFirst (rawIdentities s) := by
  have heq : extractExecutables s = dedupAcc [] (rawIdentities s) := procSegs_eq _ _
  refine ⟨?_, ?_, heq⟩
  · intro e he
    rw [heq] at he
    rcases mem_dedupAcc he with h' | h'
    · exact absurd h' (List.not_mem_nil e)
    · rcases List.mem_filterMap.mp h' with ⟨seg, _, hseg⟩
      exact segExec_valid hseg
  · rw [heq]
    exact dedupAcc_nodup _ _ List.nodup_nil

/-- C1 witness: the invariants applied at a concrete input. -/
theorem c1_output_invariants_witness :
    identityOk ("docker ps".toList) = true ∧
    (extractExecutables ("sudo docker ps -a".toList)).Nodup :=
  ⟨(c1_output_invariants ("sudo docker ps -a".toList)).1 _ (by decide),
   (c1_output_invariants ("sudo docker ps -a".toList)).2.1⟩

/-! ### Claim C2: totality and the empty input -/

/-- C2: `extractExecutables` is total over all inputs — every input yields
a (possibly empty) list — and the empty command yields the empty list. -/
theorem c2_total_empty :
    (∀ s : List Char, ∃ out : List (List Char), extractExecutables s = out) ∧
    extractExecutables ("".toList) = [] :=
  ⟨fun s => ⟨extractExecutables s, rfl⟩, rfl⟩

/-! ### Counterexamples and concrete evaluations -/

/-- C3 counterexample: the input contains the heredoc-looking construct
`<<B` (accepted by the code's own heredoc-start test) with no matching
terminator line, yet `echo`, which lies after that construct, is still
extracted, and the output differs from the extraction of the prefix that
precedes the construct: the construct sits inside the body of the
terminated heredoc `<<A … A`, which is removed first. -/
theorem c3_claim_false :
    extractExecutables ("<<A\n<<B\nA\necho hi".toList) = ["echo".toList] ∧
    extractExecutables ("<<A\n".toList) = [] ∧
    isH2Start ("<<B\nA\necho hi".toList) = true :=
  ⟨by decide, by decide, by decide⟩

/-- C4 counterexample: joining `cat <<EOF` and `rm x` with `;` yields only
`["cat"]`, not the deduplicated union `["cat", "rm"]` of the two separate
extractions — the unterminated heredoc of the first command swallows the
second. -/
theorem c4_claim_false :
    extractExecutables ("cat <<EOF".toList ++ ';' :: "rm x".toList) = ["cat".toList] ∧
    dedupFirst (extractExecutables ("cat <<EOF".toList) ++
      extractExecutables ("rm x".toList)) = ["cat".toList, "rm".toList] ∧
    (["cat".toList] : List (List Char)) ≠ ["cat".toList, "rm".toList] :=
  ⟨by decide, by decide, by decide⟩

/-- C5 counterexample: in `a.b ls` the first remaining token `a.b` has a
basename that fails `^[A-Za-z0-9_-]+$`, yet the segment still yields `ls`
instead of contributing nothing. -/
theorem c5_claim_false :
    extractExecutables ("a.b ls".toList) = ["ls".toList] ∧
    extractExecutables ("a.b ls".toList) ≠ [] :=
  ⟨by decide, by decide⟩

/-- C6 counterexample: the for-loop example does not return exactly
`["cat"]` — the loop variable `f` is reported as well. -/
theorem c6_claim_false :
    extractExecutables ("for f in *.txt; do cat \"$f\"; done".toList) ≠
      ["cat".toList] := by decide

/-- C6 amended: the keywords `for`, `in`, `do`, `done` are skipped, but the
loop variable `f` is accepted as an executable, so the output is
`["f", "cat"]`. -/
theorem c6_for_loop_value :
    extractExecutables ("for f in *.txt; do cat \"$f\"; done".toList) =
      ["f".toList, "cat".toList] := by decide

/-- C7 counterexample: the heredoc example does not return exactly
`["echo"]` — the invoking command `cat` is reported as well. -/
theorem c7_claim_false :
    extractExecutables ("cat <<\'EOF\'\nsome text with rm -rf /\nEOF\necho done".toList) ≠
      ["echo".toList] := by decide

/-- C7 amended: the terminated heredoc body is suppressed (`rm` is not
reported) and the trailing command after the terminator is retained, but
the command `cat` that introduces the heredoc is reported too, so the
output is `["cat", "echo"]`. -/
theorem c7_heredoc_example_value :
    extractExecutables ("cat <<\'EOF\'\nsome text with rm -rf /\nEOF\necho done".toList) =
      ["cat".toList, "echo".toList] ∧
    "rm".toList ∉
      extractExecutables ("cat <<\'EOF\'\nsome text with rm -rf /\nEOF\necho done".toList) :=
  ⟨by decide, by decide⟩

/-- C9 counterexample: in `"cat" ca2>&1t` the word `cat` occurs only inside
the balanced double-quoted span — applying the quote-neutralization passes
alone to the input erases every occurrence — yet `cat` is reported,
because redirection stripping glues `ca` and `t` together afterwards. -/
theorem c9_claim_false :
    extractExecutables ("\"cat\" ca2>&1t".toList) = ["cat".toList] ∧
    containsSeq ("cat".toList) ("\"cat\" ca2>&1t".toList) = true ∧
    containsSeq ("cat".toList) (quoteNeutralize ("\"cat\" ca2>&1t".toList)) = false :=
  ⟨by decide, by decide, by decide⟩

/-! ### Claim C5: choice of the candidate executable -/

/-- C5 amended: within a segment, after the skip conditions, the emitted
executable is the path-stripped basename of the first token whose basename
matches `^[A-Za-z0-9_-]+$`; a token whose basename fails the test is
passed over and the scan continues with the later tokens, as the `a.b ls`
evaluation shows. -/
theorem c5_first_valid_basename :
    (∀ parts : List (List Char), (findExec parts).map Prod.fst = firstExecSpec parts) ∧
    extractExecutables ("a.b ls".toList) = ["ls".toList] := by
  refine ⟨?_, by decide⟩
  intro parts
  induction parts with
  | nil => rfl
  | cons part r ih =>
    rw [findExec, firstExecSpec, List.findSome?_cons]
    cases hs : skipTok part with
    | true => simpa [hs, firstExecSpec] using ih
    | false =>
      cases hv : validName (jsBasename part) with
      | true => simp [hs, hv]
      | false => simpa [hs, hv, firstExecSpec] using ih

/-! ### Claim C8: the subcommand scan -/

/-- C8: the subcommand scan skips tokens that start with `-` or contain
`=`; the first other token is the subcommand when it matches
`^[A-Za-z0-9_-]+$` and otherwise the scan halts at once; the emitted
identity is `"<executable> <subcommand>"`, as the two evaluations show. -/
theorem c8_subcommand_scan :
    (∀ parts : List (List Char), findSub parts = subScanSpec parts) ∧
    extractExecutables ("sudo docker ps -a".toList) = ["docker ps".toList] ∧
    extractExecutables ("echo hello && npm run build".toList) =
      ["echo".toList, "npm run".toList] := by
  refine ⟨?_, by decide, by decide⟩
  intro parts
  induction parts with
  | nil => rfl
  | cons np r ih =>
    rw [findSub]
    cases hs : (startsDash np || containsEq np) with
    | true =>
      rw [if_pos rfl, ih]
      unfold subScanSpec
      rw [List.dropWhile_cons_of_pos (by simp [hs])]
    | false =>
      rw [if_neg (by simp)]
      unfold subScanSpec
      rw [List.dropWhile_cons_of_neg (by simp [hs])]

/-! ### Quote-pass lemmas -/

theorem findQuoteSplit_none {q : Char} : ∀ {s : List Char}, q ∉ s →
    findQuoteSplit q s = none := by
  intro s
  induction s with
  | nil => intro _; rfl
  | cons c r ih =>
    intro h
    rw [findQuoteSplit, if_neg (by rintro rfl; exact h (List.mem_cons_self _ _))]
    exact ih (fun hq => h (List.mem_cons_of_mem c hq))

theorem findQuoteSplit_append {q : Char} : ∀ {v : List Char} (w : List Char), q ∉ v →
    findQuoteSplit q (v ++ q :: w) = some w := by
  intro v
  induction v with
  | nil => intro w _; simp [findQuoteSplit]
  | cons c r ih =>
    intro w h
    rw [List.cons_append, findQuoteSplit,
      if_neg (by rintro rfl; exact h (List.mem_cons_self _ _))]
    exact ih w (fun hq => h (List.mem_cons_of_mem c hq))

theorem findQuoteSplit_shorter {q : Char} : ∀ {s a : List Char},
    findQuoteSplit q s = some a → a.length < s.length := by
  intro s
  induction s with
  | nil => intro a h; exact absurd h (by simp [findQuoteSplit])
  | cons c r ih =>
    intro a h
    rw [findQuoteSplit] at h
    split at h
    · cases h; simp
    · have := ih h
      simp only [List.length_cons]
      omega

theorem replQ_fuelEq {q : Char} : ∀ (n : Nat) (s : List Char) (f g : Nat),
    s.length ≤ n → s.length ≤ f → s.length ≤ g → replQ q f s = replQ q g s := by
  intro n
  induction n with
  | zero =>
    intro s f g hn _ _
    have : s = [] := List.length_eq_zero.mp (Nat.le_zero.mp hn)
    subst this
    cases f <;> cases g <;> rfl
  | succ n ih =>
    intro s f g hn hf hg
    cases s with
    | nil => cases f <;> cases g <;> rfl
    | cons c rest =>
      simp only [List.length_cons] at hn hf hg
      cases f with
      | zero => omega
      | succ f' =>
        cases g with
        | zero => omega
        | succ g' =>
          rw [replQ, replQ]
          by_cases hc : c = q
          · rw [if_pos hc, if_pos hc]
            cases hsplit : findQuoteSplit q rest with
            | none => rfl
            | some after =>
              have hlt := findQuoteSplit_shorter hsplit
              show q :: q :: replQ q f' after = q :: q :: replQ q g' after
              rw [ih after f' g' (by omega) (by omega) (by omega)]
          · rw [if_neg hc, if_neg hc]
            rw [ih rest f' g' (by omega) (by omega) (by omega)]

theorem replQ_fuel {q : Char} {s : List Char} {f : Nat} (hf : s.length ≤ f) :
    replQ q f s = stripQuoted q s :=
  replQ_fuelEq s.length s f s.length le_rfl hf le_rfl

theorem replQ_id {q : Char} : ∀ (f : Nat) {s : List Char}, q ∉ s → replQ q f s = s := by
  intro f
  induction f with
  | zero => intro s _; rfl
  | succ f ih =>
    intro s h
    cases s with
    | nil => rfl
    | cons c rest =>
      rw [replQ, if_neg (by rintro rfl; exact h (List.mem_cons_self _ _))]
      rw [ih (fun hq => h (List.mem_cons_of_mem c hq))]

theorem stripQuoted_id {q : Char} {s : List Char} (h : q ∉ s) : stripQuoted q s = s :=
  replQ_id s.length h

theorem replQ_cons_ne {q c : Char} {f : Nat} {s : List Char} (hc : c ≠ q) :
    replQ q (f + 1) (c :: s) = c :: replQ q f s := by
  rw [replQ, if_neg hc]

theorem replQ_cons_found {q : Char} {f : Nat} {s after : List Char}
    (h : findQuoteSplit q s = some after) :
    replQ q (f + 1) (q :: s) = q :: q :: replQ q f after := by
  rw [replQ, if_pos rfl, h]

theorem stripQuoted_cons_ne {q c : Char} {s : List Char} (hc : c ≠ q) :
    stripQuoted q (c :: s) = c :: stripQuoted q s := by
  show replQ q (s.length + 1) (c :: s) = c :: stripQuoted q s
  rw [replQ_cons_ne hc]
  rfl

theorem stripQuoted_balanced {q : Char} {u v w : List Char} (hu : q ∉ u) (hv : q ∉ v) :
    stripQuoted q (u ++ q :: (v ++ q :: w)) = u ++ q :: q :: stripQuoted q w := by
  induction u with
  | nil =>
    rw [List.nil_append]
    show replQ q ((v ++ q :: w).length + 1) (q :: (v ++ q :: w)) = _
    rw [replQ_cons_found (findQuoteSplit_append w hv)]
    rw [replQ_fuel (by simp [List.length_append]; omega)]
    rfl
  | cons c u' ih =>
    have hc : c ≠ q := by rintro rfl; exact hu (List.mem_cons_self _ _)
    have hu' : q ∉ u' := fun hq => hu (List.mem_cons_of_mem c hq)
    rw [List.cons_append, stripQuoted_cons_ne hc, ih hu', List.cons_append]

theorem mem_first_split {q : Char} : ∀ {l : List Char}, q ∈ l →
    ∃ p t, l = p ++ q :: t ∧ q ∉ p := by
  intro l
  induction l with
  | nil => intro h; exact absurd h (List.not_mem_nil q)
  | cons c r ih =>
    intro h
    by_cases hc : c = q
    · exact ⟨[], r, by rw [hc, List.nil_append], List.not_mem_nil q⟩
    · have hq : q ∈ r := by
        rcases List.mem_cons.mp h with h' | h'
        · exact absurd h'.symm hc
        · exact h'
      obtain ⟨p, t, rfl, hp⟩ := ih hq
      exact ⟨c :: p, t, rfl, by
        intro hmem
        rcases List.mem_cons.mp hmem with h' | h'
        · exact hc h'.symm
        · exact hp h'⟩

theorem c10core {q : Char} {v : List Char} (hv : q ∉ v) :
    ∀ (n : Nat) (u : List Char) (f : Nat), (u ++ q :: v).length ≤ f →
      u.count q % 2 = 0 → (u ++ q :: v).length ≤ n →
      replQ q f (u ++ q :: v) = stripQuoted q u ++ q :: v := by
  intro n
  induction n with
  | zero =>
    intro u f _ _ hn
    simp [List.length_append] at hn
  | succ n ih =>
    intro u f hf hcount hn
    cases u with
    | nil =>
      simp only [List.nil_append, List.length_cons] at hf ⊢
      cases f with
      | zero => omega
      | succ f' =>
        rw [replQ, if_pos rfl, findQuoteSplit_none hv]
        rfl
    | cons c u' =>
      simp only [List.cons_append, List.length_cons] at hf hn ⊢
      cases f with
      | zero => omega
      | succ f' =>
        by_cases hc : c = q
        · subst hc
          have hqmem : c ∈ u' := by
            by_contra hq
            have h0 : u'.count c = 0 := List.count_eq_zero.mpr hq
            rw [List.count_cons_self, h0] at hcount
            omega
          obtain ⟨p, t, rfl, hp⟩ := mem_first_split hqmem
          have hassoc : (p ++ c :: t) ++ c :: v = p ++ c :: (t ++ c :: v) := by simp
          rw [hassoc, replQ_cons_found (findQuoteSplit_append _ hp)]
          have htcount : t.count c % 2 = 0 := by
            rw [List.count_cons_self, List.count_append, List.count_cons_self,
              List.count_eq_zero.mpr hp] at hcount
            omega
          have hlen1 : (t ++ c :: v).length ≤ f' := by
            rw [hassoc] at hf
            simp only [List.length_append, List.length_cons] at hf ⊢
            omega
          have hlen2 : (t ++ c :: v).length ≤ n := by
            rw [hassoc] at hn
            simp only [List.length_append, List.length_cons] at hn ⊢
            omega
          rw [ih t f' hlen1 htcount hlen2]
          rw [show stripQuoted c (c :: (p ++ c :: t)) = c :: c :: stripQuoted c t from
            stripQuoted_balanced (List.not_mem_nil c) hp]
          simp
        · rw [replQ_cons_ne hc, stripQuoted_cons_ne hc, List.cons_append]
          have hcount' : u'.count q % 2 = 0 := by
            rwa [List.count_cons_of_ne (fun h => hc h.symm)] at hcount
          rw [ih u' f' (by omega) hcount' (by omega)]

/-! ### Claim C9: string-literal neutralization -/

/-- C9 amended: the neutralization pass for each quote type replaces the
contents of a balanced quoted span by an empty span of the same quote
type, and the `git commit` example evaluates as stated; the informal
consequence that a name inside a balanced span is never reported does not
survive the later pipeline stages (see the counterexample). -/
theorem c9_quote_neutralization (q : Char) (u v w : List Char)
    (hu : q ∉ u) (hv : q ∉ v) :
    stripQuoted q (u ++ q :: (v ++ q :: w)) = u ++ q :: q :: stripQuoted q w ∧
    extractExecutables ("git commit -m \'fix: handles <<EOF markers\'".toList) =
      ["git commit".toList] :=
  ⟨stripQuoted_balanced hu hv, by decide⟩

/-- C9 witness: the neutralization property at a concrete input. -/
theorem c9_quote_neutralization_witness :
    stripQuoted '"' ("a ".toList ++ '"' :: ("b".toList ++ '"' :: " c".toList)) =
      "a ".toList ++ '"' :: '"' :: stripQuoted '"' (" c".toList) ∧
    extractExecutables ("git commit -m \'fix: handles <<EOF markers\'".toList) =
      ["git commit".toList] :=
  c9_quote_neutralization '"' ("a ".toList) ("b".toList) (" c".toList)
    (by decide) (by decide)

/-! ### Claim C10: unmatched quotes -/

/-- C10: a quote with no later matching quote of the same type (an even
number of earlier quotes, none after) is left in place together with all
the text that follows it, and the `echo "unclosed; rm x` example shows the
text after the unmatched quote is still scanned. -/
theorem c10_unmatched_quote (q : Char) (u v : List Char)
    (h1 : u.count q % 2 = 0) (h2 : q ∉ v) :
    stripQuoted q (u ++ q :: v) = stripQuoted q u ++ q :: v ∧
    extractExecutables ("echo \"unclosed; rm x".toList) =
      ["echo".toList, "rm".toList] :=
  ⟨c10core h2 (u ++ q :: v).length u (u ++ q :: v).length le_rfl h1 le_rfl, by decide⟩

/-- C10 witness: the unmatched-quote property at a concrete input. -/
theorem c10_unmatched_quote_witness :
    stripQuoted '"' ("a\"b\"c".toList ++ '"' :: "def".toList) =
      stripQuoted '"' ("a\"b\"c".toList) ++ '"' :: "def".toList ∧
    extractExecutables ("echo \"unclosed; rm x".toList) =
      ["echo".toList, "rm".toList] :=
  c10_unmatched_quote '"' ("a\"b\"c".toList) ("def".toList) (by decide) (by decide)

/-! ### Cleaning passes are inert without their trigger characters -/

theorem scrub_id {m : List Char → Option Nat} : ∀ {s : List Char} (f : Nat),
    (∀ i : Nat, m (s.drop i) = none) → scrub m f s = s := by
  intro s
  induction s with
  | nil => intro f _; cases f <;> rfl
  | cons c rest ih =>
    intro f h
    cases f with
    | zero => rfl
    | succ f =>
      rw [scrub, show m (c :: rest) = none from h 0]
      exact congrArg (c :: ·) (ih f (fun i => h (i + 1)))

theorem matchH1_none {s : List Char} (h : '<' ∉ s) : matchH1 s = none := by
  cases s with
  | nil => rfl
  | cons c1 s1 =>
    cases s1 with
    | nil => rfl
    | cons c2 rest =>
      rw [matchH1, if_neg ?_]
      simp only [Bool.and_eq_true, decide_eq_true_eq]
      rintro ⟨rfl, -⟩
      exact h (List.mem_cons_self _ _)

theorem isH2Start_none {s : List Char} (h : '<' ∉ s) : isH2Start s = false := by
  cases s with
  | nil => rfl
  | cons c1 s1 =>
    cases s1 with
    | nil => rfl
    | cons c2 rest =>
      rw [isH2Start]
      have hc : (c1 = '<' : Bool) = false := by
        simp only [decide_eq_false_iff_not]
        rintro rfl
        exact h (List.mem_cons_self _ _)
      rw [hc, Bool.false_and, Bool.false_and]

theorem heredocStrip2_of_none : ∀ {s : List Char},
    (∀ i : Nat, isH2Start (s.drop i) = false) → heredocStrip2 s = s := by
  intro s
  induction s with
  | nil => intro _; rfl
  | cons c r ih =>
    intro h
    have h0 : isH2Start (c :: r) = false := h 0
    rw [heredocStrip2, if_neg (by simp [h0])]
    exact congrArg (c :: ·) (ih (fun i => h (i + 1)))

theorem matchRedir1_none {s : List Char} (h : '>' ∉ s) : matchRedir1 s = none := by
  unfold matchRedir1
  cases hd : s.drop (digitRun s) with
  | nil => rfl
  | cons c r =>
    have hc : c ≠ '>' := by
      rintro rfl
      exact h (List.drop_subset _ _ (by rw [hd]; exact List.mem_cons_self _ _))
    split
    · rename_i heq
      injection heq with h1 _
      exact absurd h1 hc
    · rfl

theorem matchRedir2_none {s : List Char} (h : '>' ∉ s) : matchRedir2 s = none := by
  unfold matchRedir2
  split
  · rfl
  · cases hd : s.drop (digitRun s) with
    | nil => rfl
    | cons c r =>
      have hc : c ≠ '>' := by
        rintro rfl
        exact h (List.drop_subset _ _ (by rw [hd]; exact List.mem_cons_self _ _))
      split
      · rename_i heq
        injection heq with h1 _
        exact absurd h1 hc
      · rfl

theorem matchRedir3_none {s : List Char} (h : '>' ∉ s) : matchRedir3 s = none := by
  unfold matchRedir3
  split
  · rfl
  · cases hd : s.drop (digitRun s) with
    | nil => rfl
    | cons c r =>
      have hc : c ≠ '>' := by
        rintro rfl
        exact h (List.drop_subset _ _ (by rw [hd]; exact List.mem_cons_self _ _))
      split
      · rename_i heq
        injection heq with h1 _
        exact absurd h1 hc
      · rfl

theorem not_mem_drop {c : Char} {s : List Char} (h : c ∉ s) (i : Nat) : c ∉ s.drop i :=
  fun hm => h (List.drop_subset _ _ hm)

/-- The whole cleaning pipeline keeps a string without quotes, backticks,
`<` or `>` unchanged. -/
theorem cleanAll_id {s : List Char} (h : ∀ c ∈ s, c ∉ specialChars) : cleanAll s = s := by
  have hlt : '<' ∉ s := fun hm => h _ hm (by decide)
  have hgt : '>' ∉ s := fun hm => h _ hm (by decide)
  have hdq : '"' ∉ s := fun hm => h _ hm (by decide)
  have hsq : '\'' ∉ s := fun hm => h _ hm (by decide)
  have hbq : '\x60' ∉ s := fun hm => h _ hm (by decide)
  have h1 : heredocStrip1 s = s :=
    scrub_id _ (fun i => matchH1_none (not_mem_drop hlt i))
  have h2 : heredocStrip2 s = s :=
    heredocStrip2_of_none (fun i => isH2Start_none (not_mem_drop hlt i))
  simp only [cleanAll, postHeredoc, h1, h2, stripQuoted_id hdq, stripQuoted_id hsq,
    stripQuoted_id hbq]
  rw [scrub_id _ (fun i => matchRedir1_none (not_mem_drop hgt i)),
    scrub_id _ (fun i => matchRedir2_none (not_mem_drop hgt i)),
    scrub_id _ (fun i => matchRedir3_none (not_mem_drop hgt i))]

/-! ### Segment fields across a separator -/

theorem segExec_nil : segExec [] = none := rfl

theorem splitRunsGo_build_nil {p : Char → Bool} {acc : List Char} :
    splitRunsGo p false acc [] = [acc.reverse] := rfl

theorem splitRunsGo_run_nil {p : Char → Bool} {acc : List Char} :
    splitRunsGo p true acc [] = [[]] := rfl

theorem splitRunsGo_build_pos {p : Char → Bool} {c : Char} {r acc : List Char}
    (hc : p c = true) :
    splitRunsGo p false acc (c :: r) = acc.reverse :: splitRunsGo p true [] r := by
  rw [splitRunsGo, if_pos hc]

theorem splitRunsGo_build_neg {p : Char → Bool} {c : Char} {r acc : List Char}
    (hc : p c = false) :
    splitRunsGo p false acc (c :: r) = splitRunsGo p false (c :: acc) r := by
  rw [splitRunsGo, if_neg (by simp [hc])]

theorem splitRunsGo_run_pos {p : Char → Bool} {c : Char} {r acc : List Char}
    (hc : p c = true) :
    splitRunsGo p true acc (c :: r) = splitRunsGo p true [] r := by
  rw [splitRunsGo, if_pos hc]

theorem splitRunsGo_run_neg {p : Char → Bool} {c : Char} {r acc : List Char}
    (hc : p c = false) :
    splitRunsGo p true acc (c :: r) = splitRunsGo p false [c] r := by
  rw [splitRunsGo, if_neg (by simp [hc])]

theorem filterMap_splitRunsGo_skip {g : List Char → Option (List Char)} (hg : g [] = none)
    {p : Char → Bool} (b : List Char) :
    List.filterMap g (splitRunsGo p true [] b) =
      List.filterMap g (splitRunsGo p false [] b) := by
  cases b with
  | nil => rw [splitRunsGo_run_nil, splitRunsGo_build_nil]; rfl
  | cons c r =>
    cases hpc : p c with
    | true =>
      rw [splitRunsGo_run_pos hpc, splitRunsGo_build_pos hpc]
      simp [List.filterMap_cons, hg]
    | false =>
      rw [splitRunsGo_run_neg hpc, splitRunsGo_build_neg hpc]

theorem filterMap_splitRunsGo_append {g : List Char → Option (List Char)} (hg : g [] = none)
    {p : Char → Bool} {x : Char} (hx : p x = true) {b : List Char} :
    ∀ (a : List Char) (st : Bool) (acc : List Char),
    List.filterMap g (splitRunsGo p st acc (a ++ x :: b)) =
      List.filterMap g (splitRunsGo p st acc a) ++
      List.filterMap g (splitRunsGo p false [] b) := by
  intro a
  induction a with
  | nil =>
    intro st acc
    cases st with
    | false =>
      rw [List.nil_append, splitRunsGo_build_pos hx, splitRunsGo_build_nil]
      simp only [List.filterMap_cons]
      cases g acc.reverse <;> simp [filterMap_splitRunsGo_skip hg b]
    | true =>
      rw [List.nil_append, splitRunsGo_run_pos hx, splitRunsGo_run_nil]
      simp [List.filterMap_cons, hg, filterMap_splitRunsGo_skip hg b]
  | cons c a' ih =>
    intro st acc
    cases st with
    | false =>
      rw [List.cons_append]
      cases hpc : p c with
      | true =>
        rw [splitRunsGo_build_pos hpc, splitRunsGo_build_pos hpc]
        simp only [List.filterMap_cons]
        cases g acc.reverse <;> simp [ih true []]
      | false =>
        rw [splitRunsGo_build_neg hpc, splitRunsGo_build_neg hpc]
        exact ih false (c :: acc)
    | true =>
      rw [List.cons_append]
      cases hpc : p c with
      | true =>
        rw [splitRunsGo_run_pos hpc, splitRunsGo_run_pos hpc]
        exact ih true []
      | false =>
        rw [splitRunsGo_run_neg hpc, splitRunsGo_run_neg hpc]
        exact ih false [c]

/-! ### Deduplication algebra -/

theorem dedupAcc_append : ∀ (l m acc : List (List Char)),
    dedupAcc acc (l ++ m) = dedupAcc (dedupAcc acc l) m := by
  intro l
  induction l with
  | nil => intro m acc; rfl
  | cons e l ih =>
    intro m acc
    rw [List.cons_append, dedupAcc, dedupAcc]
    exact ih m _

theorem dedupAcc_eq_news : ∀ (l acc : List (List Char)),
    dedupAcc acc l = acc ++ newsF acc l := by
  intro l
  induction l with
  | nil => intro acc; simp [dedupAcc, newsF]
  | cons e l ih =>
    intro acc
    rw [dedupAcc, newsF]
    by_cases he : e ∈ acc
    · rw [if_pos he, show pushNew acc e = acc from if_pos he]
      exact ih acc
    · rw [if_neg he, show pushNew acc e = acc ++ [e] from if_neg he, ih (acc ++ [e])]
      simp

theorem newsF_newsF : ∀ (l : List (List Char)) (inA acc : List (List Char)),
    (∀ x ∈ inA, x ∈ acc) → newsF acc (newsF inA l) = newsF acc l := by
  intro l
  induction l with
  | nil => intro inA acc _; rfl
  | cons e l ih =>
    intro inA acc h
    rw [newsF]
    by_cases hin : e ∈ inA
    · rw [if_pos hin, ih inA acc h, newsF, if_pos (h e hin)]
    · rw [if_neg hin, newsF]
      by_cases hac : e ∈ acc
      · rw [if_pos hac, newsF, if_pos hac]
        exact ih (inA ++ [e]) acc (by
          intro x hx
          rcases List.mem_append.mp hx with h' | h'
          · exact h x h'
          · rwa [List.mem_singleton.mp h'])
      · rw [if_neg hac, newsF, if_neg hac]
        refine congrArg (e :: ·) (ih (inA ++ [e]) (acc ++ [e]) ?_)
        intro x hx
        rcases List.mem_append.mp hx with h' | h'
        · exact List.mem_append.mpr (Or.inl (h x h'))
        · exact List.mem_append.mpr (Or.inr h')

theorem dedupAcc_of_dedupAcc_nil (l acc : List (List Char)) :
    dedupAcc acc (dedupAcc [] l) = dedupAcc acc l := by
  rw [dedupAcc_eq_news l acc, dedupAcc_eq_news (dedupAcc [] l) acc,
    dedupAcc_eq_news l []]
  rw [List.nil_append]
  rw [newsF_newsF l [] acc (by intro x hx; exact absurd hx (List.not_mem_nil x))]

/-! ### Claim C4: concatenation with a semicolon -/

/-- C4 amended: when neither command contains a quote, a backtick, `<` or
`>` (so no heredoc, string-literal or redirection construct can form or
straddle the join), extracting from `a ; b` yields exactly the first-seen
deduplication of the two separate extractions, in first-occurrence order
across the concatenation.  Without that restriction the claim fails (see
the counterexample). -/
theorem c4_concat_union (a b : List Char)
    (ha : ∀ c ∈ a, c ∉ specialChars) (hb : ∀ c ∈ b, c ∉ specialChars) :
    extractExecutables (a ++ ';' :: b) =
      dedupFirst (extractExecutables a ++ extractExecutables b) := by
  have hab : ∀ c ∈ a ++ ';' :: b, c ∉ specialChars := by
    intro c hc
    rcases List.mem_append.mp hc with h' | h'
    · exact ha c h'
    · rcases List.mem_cons.mp h' with rfl | h''
      · decide
      · exact hb c h''
  unfold extractExecutables
  rw [cleanAll_id hab, cleanAll_id ha, cleanAll_id hb]
  rw [procSegs_eq, procSegs_eq, procSegs_eq]
  rw [show splitRuns isSep (a ++ ';' :: b) = splitRunsGo isSep false [] (a ++ ';' :: b)
    from rfl]
  rw [filterMap_splitRunsGo_append segExec_nil (by decide) a false []]
  simp only [splitRuns]
  rw [dedupAcc_append, dedupFirst, dedupAcc_append]
  rw [dedupAcc_of_dedupAcc_nil, dedupAcc_of_dedupAcc_nil]

/-- C4 witness: the amended statement at concrete commands. -/
theorem c4_concat_union_witness :
    extractExecutables ("ls -l".toList ++ ';' :: "pwd; ls -l".toList) =
      dedupFirst (extractExecutables ("ls -l".toList) ++
        extractExecutables ("pwd; ls -l".toList)) :=
  c4_concat_union ("ls -l".toList) ("pwd; ls -l".toList) (by decide) (by decide)

/-! ### Claim C3: heredoc-start analysis -/

theorem tryFrom_some {f : Nat → Option Nat} : ∀ {k n : Nat}, tryFrom f k = some n →
    ∃ j, j ≤ k ∧ f j = some n := by
  intro k
  induction k with
  | zero => intro n h; exact ⟨0, le_rfl, h⟩
  | succ k ih =>
    intro n h
    rw [tryFrom] at h
    cases hf : f (k + 1) with
    | some m =>
      rw [hf] at h
      have h' : some m = some n := h
      cases h'
      exact ⟨k + 1, le_rfl, hf⟩
    | none =>
      rw [hf] at h
      have h' : tryFrom f k = some n := h
      obtain ⟨j, hj, hfj⟩ := ih h'
      exact ⟨j, Nat.le_succ_of_le hj, hfj⟩

theorem h2Core_cons (c : Char) (r' : List Char) :
    h2Core (c :: r') =
      if isQuoteCh c then
        (match r' with
         | [] => false
         | d :: _ => isWordChar d)
      else isWordChar c := rfl

theorem quote_not_word {c : Char} (h : isQuoteCh c = true) : isWordChar c = false := by
  simp only [isQuoteCh, Bool.or_eq_true, decide_eq_true_eq] at h
  rcases h with rfl | rfl <;> decide

theorem wordRun_head : ∀ {r : List Char}, 0 < wordRun r →
    ∃ d t, r = d :: t ∧ isWordChar d = true := by
  intro r h
  cases r with
  | nil => simp [wordRun, List.takeWhile] at h
  | cons d t =>
    cases hw : isWordChar d with
    | true => exact ⟨d, t, rfl, hw⟩
    | false =>
      rw [wordRun, List.takeWhile_cons_of_neg (by simp [hw])] at h
      simp at h

theorem h1Marker_wordRun {r : List Char} {n : Nat} (h : h1Marker r = some n) :
    0 < wordRun r := by
  unfold h1Marker at h
  obtain ⟨j, hj, hfj⟩ := tryFrom_some h
  by_cases hz : j = 0
  · subst hz
    rw [if_pos rfl] at hfj
    cases hfj
  · omega

theorem h1AfterWs_h2Core : ∀ {r : List Char} {n : Nat}, h1AfterWs r = some n →
    h2Core r = true := by
  intro r n h
  cases r with
  | nil =>
    rw [h1AfterWs] at h
    have := h1Marker_wordRun h
    simp [wordRun, List.takeWhile] at this
  | cons c r' =>
    rw [h1AfterWs] at h
    by_cases hq : isQuoteCh c
    · rw [if_pos hq] at h
      cases hm : h1Marker r' with
      | some m =>
        obtain ⟨d, t, rfl, hw⟩ := wordRun_head (h1Marker_wordRun hm)
        rw [h2Core_cons, if_pos hq]
        exact hw
      | none =>
        rw [hm] at h
        have h' : h1Marker (c :: r') = some n := h
        obtain ⟨d, t, heq, hw⟩ := wordRun_head (h1Marker_wordRun h')
        cases heq
        rw [quote_not_word hq] at hw
        cases hw
    · rw [if_neg hq] at h
      obtain ⟨d, t, heq, hw⟩ := wordRun_head (h1Marker_wordRun h)
      cases heq
      rw [h2Core_cons, if_neg hq]
      exact hw

theorem lt_wsRun_mem : ∀ {s : List Char} {j : Nat}, j < wsRun s →
    ∃ c t, s.drop j = c :: t ∧ isJsWs c = true := by
  intro s
  induction s with
  | nil => intro j h; simp [wsRun, List.takeWhile] at h
  | cons c r ih =>
    intro j h
    cases hw : isJsWs c with
    | false =>
      rw [wsRun, List.takeWhile_cons_of_neg (by simp [hw])] at h
      simp at h
    | true =>
      cases j with
      | zero => exact ⟨c, r, rfl, hw⟩
      | succ j =>
        rw [wsRun, List.takeWhile_cons_of_pos hw, List.length_cons] at h
        exact ih (by rw [wsRun]; omega)

theorem h2Core_ws {c : Char} {t : List Char} (hw : isJsWs c = true) :
    h2Core (c :: t) = false := by
  rw [h2Core_cons, if_neg (by simp [ws_not_quote hw])]
  exact ws_not_word hw

theorem matchH1_isH2Start : ∀ {s : List Char} {n : Nat}, matchH1 s = some n →
    isH2Start s = true := by
  intro s n h
  cases s with
  | nil => cases h
  | cons c1 s1 =>
    cases s1 with
    | nil => cases h
    | cons c2 rest =>
      rw [matchH1] at h
      by_cases hcc : (c1 = '<' && c2 = '<') = true
      · rw [if_pos hcc] at h
        obtain ⟨m, hm, -⟩ := Option.map_eq_some'.mp h
        obtain ⟨j, hj, hfj⟩ := tryFrom_some hm
        obtain ⟨m', hm', -⟩ := Option.map_eq_some'.mp hfj
        have hcore : h2Core (rest.drop j) = true := h1AfterWs_h2Core hm'
        have hj_eq : j = wsRun rest := by
          rcases Nat.lt_or_ge j (wsRun rest) with hlt | hge
          · obtain ⟨c, t, heq, hws⟩ := lt_wsRun_mem hlt
            rw [heq, h2Core_ws hws] at hcore
            cases hcore
          · omega
        rw [isH2Start, hcc, Bool.true_and, ← hj_eq]
        exact hcore
      · rw [if_neg hcc] at h
        cases h

theorem matchH1_none_of_not_start {s : List Char} (h : isH2Start s = false) :
    matchH1 s = none := by
  cases hm : matchH1 s with
  | none => rfl
  | some n =>
    rw [matchH1_isH2Start hm] at h
    cases h

theorem drop_wsRun_eq_dropWhile : ∀ (s : List Char),
    s.drop (wsRun s) = s.dropWhile isJsWs := by
  intro s
  induction s with
  | nil => rfl
  | cons c r ih =>
    cases hw : isJsWs c with
    | true =>
      rw [wsRun, List.takeWhile_cons_of_pos hw, List.length_cons,
        List.dropWhile_cons_of_pos hw, List.drop_succ_cons]
      exact ih
    | false =>
      rw [wsRun, List.takeWhile_cons_of_neg (by simp [hw]),
        List.dropWhile_cons_of_neg (by simp [hw])]
      rfl

theorem dropWhile_append_nonempty {p : Char → Bool} : ∀ {s : List Char} {x : List Char}
    {c : Char} {t : List Char}, s.dropWhile p = c :: t →
    (s ++ x).dropWhile p = c :: (t ++ x) := by
  intro s
  induction s with
  | nil => intro x c t h; cases h
  | cons d r ih =>
    intro x c t h
    cases hd : p d with
    | true =>
      rw [List.dropWhile_cons_of_pos hd] at h
      rw [List.cons_append, List.dropWhile_cons_of_pos hd]
      exact ih h
    | false =>
      rw [List.dropWhile_cons_of_neg (by simp [hd])] at h
      cases h
      rw [List.cons_append, List.dropWhile_cons_of_neg (by simp [hd])]

theorem isH2Start_append {w x : List Char} (h : isH2Start w = true) :
    isH2Start (w ++ x) = true := by
  cases w with
  | nil => cases h
  | cons c1 w1 =>
    cases w1 with
    | nil => cases h
    | cons c2 rest =>
      rw [isH2Start] at h
      simp only [Bool.and_eq_true, decide_eq_true_eq] at h
      obtain ⟨⟨rfl, rfl⟩, hcore⟩ := h
      rw [drop_wsRun_eq_dropWhile] at hcore
      cases hdw : rest.dropWhile isJsWs with
      | nil => rw [hdw] at hcore; cases hcore
      | cons d t =>
        rw [hdw] at hcore
        rw [show ('<' :: '<' :: rest) ++ x = '<' :: '<' :: (rest ++ x) from rfl]
        rw [isH2Start, drop_wsRun_eq_dropWhile, dropWhile_append_nonempty hdw]
        simp only [decide_True, Bool.true_and]
        rw [h2Core_cons] at hcore ⊢
        by_cases hq : isQuoteCh d
        · rw [if_pos hq] at hcore ⊢
          cases t with
          | nil => cases hcore
          | cons e t' => exact hcore
        · rw [if_neg hq] at hcore ⊢
          exact hcore

theorem heredocStrip2_append_start : ∀ {u v : List Char}, isH2Start v = true →
    (∀ i, i < u.length → isH2Start ((u ++ v).drop i) = false) →
    heredocStrip2 (u ++ v) = u := by
  intro u
  induction u with
  | nil =>
    intro v h2 _
    rw [List.nil_append]
    cases v with
    | nil => cases h2
    | cons c r => rw [heredocStrip2, if_pos (by simp [h2])]
  | cons c u' ih =>
    intro v h2 h3
    have h0 : isH2Start (c :: (u' ++ v)) = false := by
      have := h3 0 (by simp)
      simpa using this
    rw [List.cons_append, heredocStrip2, if_neg (by simp [h0])]
    refine congrArg (c :: ·) (ih h2 ?_)
    intro i hi
    have := h3 (i + 1) (by simp only [List.length_cons]; omega)
    simpa using this

theorem no_start_in_prefix {u v : List Char}
    (h3 : ∀ i, i < u.length → isH2Start ((u ++ v).drop i) = false) :
    ∀ i, isH2Start (u.drop i) = false := by
  intro i
  by_cases hi : i < u.length
  · cases hs : isH2Start (u.drop i) with
    | false => rfl
    | true =>
      have hx : isH2Start (u.drop i ++ v) = true := isH2Start_append hs
      have hdrop : (u ++ v).drop i = u.drop i ++ v := by
        rw [List.drop_append_eq_append_drop, Nat.sub_eq_zero_of_le (le_of_lt hi),
          List.drop_zero]
      have hfalse := h3 i hi
      rw [hdrop, hx] at hfalse
      cases hfalse
  · rw [List.drop_eq_nil_of_le (by omega)]
    rfl

/-- C3 amended: whenever the string left by the terminated-heredoc removal
pass splits as `u ++ v` with a heredoc-start construct at the head of `v`
and none earlier, everything from that construct to the end is removed
before scanning and the output equals the extraction of the prefix `u`.
The original claim, stated about constructs of the raw input, fails when
the unterminated construct sits inside the body of a terminated heredoc
(see the counterexample). -/
theorem c3_unterminated_heredoc (s u v : List Char)
    (h1 : heredocStrip1 s = u ++ v) (h2 : isH2Start v = true)
    (h3 : ∀ i, i < u.length → isH2Start ((u ++ v).drop i) = false) :
    extractExecutables s = extractExecutables u := by
  have hu_nostart : ∀ i, isH2Start (u.drop i) = false := no_start_in_prefix h3
  unfold extractExecutables cleanAll
  rw [h1, heredocStrip2_append_start h2 h3,
    show heredocStrip1 u = u from
      scrub_id _ (fun i => matchH1_none_of_not_start (hu_nostart i)),
    heredocStrip2_of_none hu_nostart]

/-- C3 witness: the amended statement at a concrete input. -/
theorem c3_unterminated_heredoc_witness :
    extractExecutables ("ls -l\n<<EOF\nrm x".toList) =
      extractExecutables ("ls -l\n".toList) ∧
    extractExecutables ("ls -l\n".toList) = ["ls".toList] :=
  ⟨c3_unterminated_heredoc ("ls -l\n<<EOF\nrm x".toList) ("ls -l\n".toList)
    ("<<EOF\nrm x".toList) (by decide) (by decide) (by decide), by decide⟩

end ExtractExec
